import Mathlib

/-!
Shallow embedding of the tool registry and dispatch facade of the MCP server
under verification.  The registry (`ToolRegistry` in `tool-registry.ts`)
indexes tools by name and by category; the dispatch facade (`meta-tools.ts`)
exposes five meta operations that query and dispatch against it.  JS `Map`s
are embedded as association lists with the `Map.set`/`Map.get` update and
lookup semantics; promise rejection and thrown exceptions are embedded as
`Except.error` carrying the message string.
-/

/-- A JSON-like value, used for structured payloads, parameter bags, zod
check values, and the output of schema serialization. -/
inductive JsonValue where
  | str (s : String)
  | num (n : Int)
  | bool (b : Bool)
  | null
  | arr (xs : List JsonValue)
  | obj (fields : List (String × JsonValue))

-- JS Map.get: first (unique) binding of the key, or none.
def findVal (k : String) : List (String × α) → Option α
  | [] => none
  | (k', v) :: rest => if k' = k then some v else findVal k rest

-- JS Map.set / object field assignment: update an existing binding in
-- place (keeping its position), otherwise append the new binding.
def setVal (k : String) (v : α) : List (String × α) → List (String × α)
  | [] => [(k, v)]
  | (k', v') :: rest => if k' = k then (k, v) :: rest else (k', v') :: setVal k v rest

-- Substring search, as in JS String.includes: q begins at the head of s ...
def leadsWith : List Char → List Char → Bool
  | [], _ => true
  | _ :: _, [] => false
  | a :: q, b :: s => (a = b) && leadsWith q s

-- ... or q occurs somewhere in s.
def occursIn : List Char → List Char → Bool
  | q, [] => q.isEmpty
  | q, b :: t => leadsWith q (b :: t) || occursIn q t

-- JS String.toLowerCase, on the character list (ASCII as used here).
def lowerStr (s : String) : String := String.mk (s.data.map Char.toLower)

def lowerData (s : String) : List Char := s.data.map Char.toLower

/-! ### The zod definition tree and its serialization (tool-registry.ts) -/

/-- One entry of a zod `checks` array: a kind tag and the check value. -/
structure ZodCheck where
  kind : String
  value : JsonValue

/-- The zod definition tree as discriminated by `zodToJsonSchema`: one
constructor per `typeName` the switch recognizes, plus `zother` for every
unrecognized type name (carrying that name).  Every node carries the
optional `description` from its `_def`. -/
inductive ZodType where
  | zstring (checks : List ZodCheck) (descr : Option String)
  | znumber (checks : List ZodCheck) (descr : Option String)
  | zboolean (descr : Option String)
  | zarray (elem : ZodType) (minLen maxLen : Option JsonValue) (descr : Option String)
  | zobject (shape : List (String × ZodType)) (descr : Option String)
  | zoptional (inner : ZodType) (descr : Option String)
  | zdefault (inner : ZodType) (dflt : JsonValue) (descr : Option String)
  | zenum (values : List String) (descr : Option String)
  | zunion (options : List ZodType) (descr : Option String)
  | znullable (inner : ZodType) (descr : Option String)
  | zother (typeName : String) (descr : Option String)

-- `if (description) schema.description = description` — skipped when the
-- description is absent or the empty string (JS falsiness).
def applyDescr (d : Option String) (schema : List (String × JsonValue)) :
    List (String × JsonValue) :=
  match d with
  | none => schema
  | some s => if s = "" then schema else setVal "description" (.str s) schema

-- handleZodString: start from {type: "string"} and fold the checks.
def handleZodString (checks : List ZodCheck) : List (String × JsonValue) :=
  checks.foldl (fun schema c =>
    let s1 := if c.kind = "max" then setVal "maxLength" c.value schema else schema
    if c.kind = "min" then setVal "minLength" c.value s1 else s1)
    [("type", .str "string")]

-- handleZodNumber: start from {type: "number"}; an "int" check overrides
-- the type to "integer"; "min"/"max" become minimum/maximum.
def handleZodNumber (checks : List ZodCheck) : List (String × JsonValue) :=
  checks.foldl (fun schema c =>
    let s1 := if c.kind = "int" then setVal "type" (.str "integer") schema else schema
    let s2 := if c.kind = "min" then setVal "minimum" c.value s1 else s1
    if c.kind = "max" then setVal "maximum" c.value s2 else s2)
    [("type", .str "number")]

def applyMaxItems (v : Option JsonValue) (schema : List (String × JsonValue)) :
    List (String × JsonValue) :=
  match v with
  | none => schema
  | some x => setVal "maxItems" x schema

def applyMinItems (v : Option JsonValue) (schema : List (String × JsonValue)) :
    List (String × JsonValue) :=
  match v with
  | none => schema
  | some x => setVal "minItems" x schema

-- typeName.replace("Zod", ""): drop the first occurrence of "Zod".
def dropZodAt : List Char → List Char
  | [] => []
  | c :: rest => if leadsWith ("Zod".data) (c :: rest) then rest.drop 2 else c :: dropZodAt rest

def stripZodLower (tn : String) : String := lowerStr (String.mk (dropZodAt tn.data))

mutual
/-- Embedding of `ToolRegistry.zodToJsonSchema`: lower one zod definition
node to a JSON object (represented by its field list). -/
def zodToJsonSchema : ZodType → List (String × JsonValue)
  | .zstring checks d => applyDescr d (handleZodString checks)
  | .znumber checks d => applyDescr d (handleZodNumber checks)
  | .zboolean d => applyDescr d [("type", .str "boolean")]
  | .zarray elem minL maxL d =>
      applyDescr d (applyMinItems minL (applyMaxItems maxL
        [("type", .str "array"), ("items", .obj (zodToJsonSchema elem))]))
  | .zobject shape d =>
      applyDescr d [("type", .str "object"), ("properties", .obj (serializeShape shape))]
  | .zoptional inner d => applyDescr d (setVal "optional" (.bool true) (zodToJsonSchema inner))
  | .zdefault inner v d => applyDescr d (setVal "default" v (zodToJsonSchema inner))
  | .zenum vals d => applyDescr d [("type", .str "string"), ("enum", .arr (vals.map .str))]
  | .zunion opts d => applyDescr d [("oneOf", .arr (zodListToJson opts))]
  | .znullable inner d => applyDescr d (setVal "nullable" (.bool true) (zodToJsonSchema inner))
  | .zother tn d => applyDescr d [("type", .str (stripZodLower tn))]

def zodListToJson : List ZodType → List JsonValue
  | [] => []
  | t :: ts => .obj (zodToJsonSchema t) :: zodListToJson ts

def serializeShape : List (String × ZodType) → List (String × JsonValue)
  | [] => []
  | (k, t) :: rest => (k, .obj (zodToJsonSchema t)) :: serializeShape rest
end

/-- Embedding of `ToolRegistry.serializeSchema`: lower each named parameter
descriptor of a schema map. -/
def serializeSchema (schema : List (String × ZodType)) : List (String × JsonValue) :=
  schema.map (fun p => (p.1, JsonValue.obj (zodToJsonSchema p.2)))

/-! ### The registry data model (tool-registry.ts) -/

structure ToolInfo where
  name : String
  title : String
  description : String
  category : String
  inputSchema : List (String × ZodType)
  outputSchema : List (String × ZodType)

structure ToolSummary where
  name : String
  description : String
deriving DecidableEq

structure CategoryInfo where
  name : String
  description : String
  toolCount : Nat
deriving DecidableEq

structure ContentBlock where
  type : String
  text : String

/-- The normalized result shape every handler returns: content blocks, an
optional structured payload, and an optional error flag. -/
structure ToolResult where
  content : List ContentBlock
  structuredContent : Option (List (String × JsonValue))
  isError : Option Bool

def ParamBag := List (String × JsonValue)

/-- A handler resolves to a ToolResult or faults (synchronous throw or
promise rejection) with an error message. -/
def Handler := ParamBag → Except String ToolResult

structure RegisteredTool where
  info : ToolInfo
  handler : Handler

structure RegState where
  tools : List (String × RegisteredTool)
  categories : List (String × CategoryInfo)
  toolsByCategory : List (String × List String)

-- The category definitions predeclared by initializeCategories.
def categoryDefs : List (String × String) :=
  [("messaging",
    "Send, read, edit, delete messages. Add reactions, pin/unpin messages."),
   ("channels",
    "Create, modify, delete channels. Manage text, voice, forum, stage channels and threads."),
   ("members",
    "Get member info, list members, manage nicknames, assign/remove roles."),
   ("roles",
    "Create, modify, delete roles. List roles and get role details."),
   ("server",
    "Server info, settings, audit logs, webhooks, and invites."),
   ("moderation",
    "Kick, ban, unban, timeout members. View ban list."),
   ("emojis",
    "List, create, modify, delete custom emojis."),
   ("stickers",
    "List, create, modify, delete custom stickers."),
   ("scheduled-events",
    "Create, modify, delete scheduled events. List events and attendees."),
   ("automod",
    "Create, modify, delete auto-moderation rules for content filtering."),
   ("application-commands",
    "Manage slash commands and context menu commands for the bot.")]

def predeclaredNames : List String := categoryDefs.map Prod.fst

/-- The registry right after construction: empty tool table, the
predeclared categories with toolCount 0, and empty per-category lists. -/
def initialState : RegState :=
  { tools := []
  , categories := categoryDefs.map (fun cd => (cd.1, { name := cd.1, description := cd.2, toolCount := 0 }))
  , toolsByCategory := categoryDefs.map (fun cd => (cd.1, [])) }

/-- Embedding of `ToolRegistry.registerTool`. -/
def registerTool (s : RegState) (name category title description : String)
    (inputSchema outputSchema : List (String × ZodType)) (handler : Handler) : RegState :=
  let info : ToolInfo :=
    { name := name, title := title, description := description, category := category
    , inputSchema := inputSchema, outputSchema := outputSchema }
  let tools' := setVal name { info := info, handler := handler } s.tools
  match findVal category s.toolsByCategory with
  | none => { s with tools := tools' }
  | some lst =>
      let tbc' := setVal category (lst ++ [name]) s.toolsByCategory
      match findVal category s.categories with
      | none => { s with tools := tools', toolsByCategory := tbc' }
      | some ci =>
          { tools := tools'
          , toolsByCategory := tbc'
          , categories := setVal category { ci with toolCount := ci.toolCount + 1 } s.categories }

/-- Embedding of `ToolRegistry.listCategories`: predeclared categories with
a positive tool count, in insertion order. -/
def listCategories (s : RegState) : List CategoryInfo :=
  (s.categories.map Prod.snd).filter (fun c => decide (0 < c.toolCount))

/-- Embedding of `ToolRegistry.listTools`: look up the lowercased category,
empty for an unknown one, and summarize each listed tool name. -/
def listTools (s : RegState) (category : String) : List ToolSummary :=
  match findVal (lowerStr category) s.toolsByCategory with
  | none => []
  | some toolNames =>
      toolNames.map (fun n =>
        { name := n
        , description := match findVal n s.tools with
            | some t => t.info.description
            | none => "" })

/-- The relevance score `searchTools` computes for one tool: +3 for a
case-insensitive substring match on the name, +2 on the title, +1 on the
description, additively. -/
def scoreOf (q : String) (name : String) (info : ToolInfo) : Nat :=
  (if occursIn (lowerData q) (lowerData name) then 3 else 0) +
  (if occursIn (lowerData q) (lowerData info.title) then 2 else 0) +
  (if occursIn (lowerData q) (lowerData info.description) then 1 else 0)

structure ScoredTool where
  score : Nat
  tool : ToolSummary

-- Stable insertion into a descending-by-score list: a lands before the
-- first strictly smaller score, matching the stable JS sort with
-- comparator (a, b) => b.score - a.score.
def insertDesc (a : ScoredTool) : List ScoredTool → List ScoredTool
  | [] => [a]
  | b :: l => if b.score < a.score then a :: b :: l else b :: insertDesc a l

def sortDesc : List ScoredTool → List ScoredTool
  | [] => []
  | a :: l => insertDesc a (sortDesc l)

/-- The scored, sorted search results of `ToolRegistry.searchTools` before
truncation: every tool with a positive score, descending by score. -/
def searchScored (s : RegState) (q : String) : List ScoredTool :=
  sortDesc (s.tools.filterMap (fun p =>
    let sc := scoreOf q p.1 p.2.info
    if 0 < sc then some { score := sc, tool := { name := p.1, description := p.2.info.description } }
    else none))

/-- Embedding of `ToolRegistry.searchTools`: score, drop zero scores, sort
descending, truncate to the limit, keep the summaries. -/
def searchTools (s : RegState) (q : String) (limit : Nat) : List ToolSummary :=
  ((searchScored s q).take limit).map (fun r => r.tool)

/-- Embedding of `ToolRegistry.getToolSchema`: exact-name lookup. -/
def getToolSchema (s : RegState) (toolName : String) : Option ToolInfo :=
  (findVal toolName s.tools).map (fun t => t.info)

/-- Embedding of `ToolRegistry.getHandler`. -/
def getHandler (s : RegState) (toolName : String) : Option Handler :=
  (findVal toolName s.tools).map (fun t => t.handler)

/-! ### Registration requests and reachable states -/

/-- One `registerTool` call with all its arguments. -/
structure RegRequest where
  name : String
  category : String
  title : String
  description : String
  inputSchema : List (String × ZodType)
  outputSchema : List (String × ZodType)
  handler : Handler

def infoOf (r : RegRequest) : ToolInfo :=
  { name := r.name, title := r.title, description := r.description
  , category := r.category, inputSchema := r.inputSchema, outputSchema := r.outputSchema }

def applyReg (s : RegState) (r : RegRequest) : RegState :=
  registerTool s r.name r.category r.title r.description r.inputSchema r.outputSchema r.handler

/-- The registry state reached by a sequence of registerTool calls after
construction; every reachable state has this form. -/
def runRegs (rs : List RegRequest) : RegState :=
  rs.foldl applyReg initialState

/-! ### The dispatch facade (meta-tools.ts) -/

-- A single-quote character, used in the not-found message texts.
def squo : String := String.singleton (Char.ofNat 39)

/-- The shared unknown-name text of get_tool_schema and execute_tool,
pointing the caller at the discovery operations. -/
def notFoundText (toolName : String) : String :=
  "Tool " ++ squo ++ toolName ++ squo ++
    " not found. Use search_tools or list_tools to find valid tool names."

def notFoundMsg (toolName : String) : String :=
  "Tool " ++ squo ++ toolName ++ squo ++ " not found"

mutual
-- Compact rendering of a JSON value; stands in for JSON.stringify in the
-- human-readable markdown (the 2-space pretty-printing whitespace of the
-- original text is not modeled; no claim depends on this text).
def renderJson : JsonValue → String
  | .str s => "\"" ++ s ++ "\""
  | .num n => toString n
  | .bool b => if b then "true" else "false"
  | .null => "null"
  | .arr xs => "[" ++ renderJsonList xs ++ "]"
  | .obj fs => "\x7b" ++ renderJsonFields fs ++ "\x7d"

def renderJsonList : List JsonValue → String
  | [] => ""
  | [x] => renderJson x
  | x :: y :: rest => renderJson x ++ "," ++ renderJsonList (y :: rest)

def renderJsonFields : List (String × JsonValue) → String
  | [] => ""
  | [(k, v)] => "\"" ++ k ++ "\":" ++ renderJson v
  | (k, v) :: p :: rest => "\"" ++ k ++ "\":" ++ renderJson v ++ "," ++ renderJsonFields (p :: rest)
end

/-- Embedding of the get_tool_schema meta-tool handler. -/
def getToolSchemaTool (s : RegState) (toolName : String) : ToolResult :=
  match getToolSchema s toolName with
  | none =>
      { content := [{ type := "text", text := notFoundText toolName }]
      , structuredContent := none
      , isError := some true }
  | some schema =>
      let serializedInput := serializeSchema schema.inputSchema
      let serializedOutput := serializeSchema schema.outputSchema
      { content :=
          [{ type := "text"
           , text := "## " ++ schema.title ++ "\n\n" ++ schema.description ++
               "\n\n**Category:** " ++ schema.category ++
               "\n\n**Input Parameters:**\n```json\n" ++ renderJson (.obj serializedInput) ++
               "\n```\n\n**Output:**\n```json\n" ++ renderJson (.obj serializedOutput) ++ "\n```" }]
      , structuredContent := some
          [("name", .str schema.name), ("title", .str schema.title),
           ("description", .str schema.description), ("category", .str schema.category),
           ("inputSchema", .obj serializedInput), ("outputSchema", .obj serializedOutput)]
      , isError := none }

/-- Embedding of the execute_tool meta-tool handler: unknown names produce
an error-flagged result; a resolved handler result is returned verbatim; a
fault is caught and converted to the error shape. -/
def executeTool (s : RegState) (toolName : String) (params : ParamBag) : ToolResult :=
  match getHandler s toolName with
  | none =>
      { content := [{ type := "text", text := notFoundText toolName }]
      , structuredContent := some
          [("success", .bool false), ("error", .str (notFoundMsg toolName))]
      , isError := some true }
  | some handler =>
      match handler params with
      | .ok result => result
      | .error msg =>
          { content := [{ type := "text", text := "Tool execution failed: " ++ msg }]
          , structuredContent := some [("success", .bool false), ("error", .str msg)]
          , isError := some true }

/-! ### Shared concrete registrations used by witnesses -/

def banHandler : Handler := fun _ =>
  .ok { content := [{ type := "text", text := "banned" }]
      , structuredContent := some [("success", .bool true)]
      , isError := none }

def banReq : RegRequest :=
  { name := "ban_member", category := "moderation", title := "Ban Member"
  , description := "Ban a user from the server", inputSchema := [], outputSchema := []
  , handler := banHandler }

def exampleState : RegState := runRegs [banReq]

def throwHandler : Handler := fun _ => .error "kaboom"

def throwReq : RegRequest :=
  { name := "boom_tool", category := "messaging", title := "Boom"
  , description := "Always throws", inputSchema := [], outputSchema := []
  , handler := throwHandler }

def banReq2 : RegRequest :=
  { name := "ban_member", category := "moderation", title := "Ban Member v2"
  , description := "Ban harder", inputSchema := [], outputSchema := []
  , handler := banHandler }

def plugHandler : Handler := fun _ =>
  .ok { content := [], structuredContent := none, isError := none }

def plugReq : RegRequest :=
  { name := "my_tool", category := "plugins", title := "My Tool"
  , description := "Does things", inputSchema := [], outputSchema := []
  , handler := plugHandler }

/-! ### Association list lemmas -/

theorem findVal_setVal_self (k : String) (v : α) (l : List (String × α)) :
    findVal k (setVal k v l) = some v := by
  induction l with
  | nil => simp [setVal, findVal]
  | cons p rest ih =>
    obtain ⟨k', v'⟩ := p
    by_cases h : k' = k
    · simp [setVal, findVal, h]
    · simp [setVal, findVal, h, ih]

theorem findVal_setVal_ne (k j : String) (v : α) (l : List (String × α)) (hne : k ≠ j) :
    findVal k (setVal j v l) = findVal k l := by
  induction l with
  | nil => simp [setVal, findVal, Ne.symm hne]
  | cons p rest ih =>
    obtain ⟨k', v'⟩ := p
    by_cases h : k' = j
    · subst h
      simp [setVal, findVal, Ne.symm hne]
    · simp [setVal, findVal, h, ih]

theorem mem_setVal (p : String × α) (k : String) (v : α) (l : List (String × α)) :
    p ∈ setVal k v l → p = (k, v) ∨ p ∈ l := by
  induction l with
  | nil => intro h; simp [setVal] at h; exact Or.inl h
  | cons q rest ih =>
    obtain ⟨k', v'⟩ := q
    by_cases h : k' = k
    · intro hm
      simp [setVal, h] at hm
      rcases hm with h1 | h1
      · exact Or.inl (by simp [h1])
      · exact Or.inr (by simp [h1])
    · intro hm
      simp [setVal, h] at hm
      rcases hm with h1 | h1
      · exact Or.inr (by simp [h1])
      · rcases ih h1 with h2 | h2
        · exact Or.inl h2
        · exact Or.inr (by simp [h2])

theorem setVal_map_fst_of_mem (k : String) (v : α) (l : List (String × α))
    (h : k ∈ l.map Prod.fst) : (setVal k v l).map Prod.fst = l.map Prod.fst := by
  induction l with
  | nil => simp at h
  | cons q rest ih =>
    obtain ⟨k', v'⟩ := q
    by_cases hk : k' = k
    · simp [setVal, hk]
    · simp only [List.map_cons] at h
      rcases List.mem_cons.mp h with h1 | h1
      · exact absurd h1.symm hk
      · simp [setVal, hk, ih h1]

theorem findVal_isSome_iff (k : String) (l : List (String × α)) :
    (findVal k l).isSome = true ↔ k ∈ l.map Prod.fst := by
  induction l with
  | nil => simp [findVal]
  | cons p rest ih =>
    obtain ⟨k', v'⟩ := p
    by_cases h : k' = k
    · simp [findVal, h]
    · have hv : findVal k ((k', v') :: rest) = findVal k rest := by simp [findVal, h]
      rw [hv, ih]
      simp only [List.map_cons, List.mem_cons]
      constructor
      · exact Or.inr
      · rintro (h1 | h1)
        · exact absurd h1.symm h
        · exact h1

theorem findVal_eq_none_iff (k : String) (l : List (String × α)) :
    findVal k l = none ↔ k ∉ l.map Prod.fst := by
  rw [← findVal_isSome_iff]
  cases findVal k l <;> simp

theorem findVal_mem (k : String) (v : α) (l : List (String × α))
    (h : findVal k l = some v) : (k, v) ∈ l := by
  induction l with
  | nil => simp [findVal] at h
  | cons p rest ih =>
    obtain ⟨k', v'⟩ := p
    by_cases hk : k' = k
    · subst hk
      simp [findVal] at h
      simp [h]
    · simp [findVal, hk] at h
      exact List.mem_cons_of_mem _ (ih h)

theorem mem_findVal (k : String) (v : α) (l : List (String × α))
    (hnd : (l.map Prod.fst).Nodup) (h : (k, v) ∈ l) : findVal k l = some v := by
  induction l with
  | nil => simp at h
  | cons p rest ih =>
    obtain ⟨k', v'⟩ := p
    simp only [List.map_cons, List.nodup_cons] at hnd
    rcases List.mem_cons.mp h with h1 | h1
    · cases h1
      simp [findVal]
    · have hk : k' ≠ k := by
        intro hkk
        subst hkk
        exact hnd.1 (List.mem_map.mpr ⟨(k', v), h1, rfl⟩)
      simp [findVal, hk]
      exact ih hnd.2 h1

theorem setVal_keys_nodup (k : String) (v : α) (l : List (String × α))
    (hnd : (l.map Prod.fst).Nodup) : ((setVal k v l).map Prod.fst).Nodup := by
  induction l with
  | nil => simp [setVal]
  | cons p rest ih =>
    obtain ⟨k', v'⟩ := p
    simp only [List.map_cons, List.nodup_cons] at hnd
    by_cases hk : k' = k
    · have hs : setVal k v ((k', v') :: rest) = (k, v) :: rest := by simp [setVal, hk]
      rw [hs]
      simp only [List.map_cons, List.nodup_cons]
      exact ⟨hk ▸ hnd.1, hnd.2⟩
    · have hs : setVal k v ((k', v') :: rest) = (k', v') :: setVal k v rest := by
        simp [setVal, hk]
      rw [hs]
      simp only [List.map_cons, List.nodup_cons]
      constructor
      · intro hmem
        rcases List.mem_map.mp hmem with ⟨q, hq, hq1⟩
        rcases mem_setVal q k v rest hq with h1 | h1
        · exact hk (by rw [h1] at hq1; exact hq1.symm)
        · exact hnd.1 (List.mem_map.mpr ⟨q, h1, hq1⟩)
      · exact ih hnd.2

/-! ### Substring lemmas -/

theorem data_append (a b : String) : (a ++ b).data = a.data ++ b.data := rfl

theorem occursIn_append_right (q s t : List Char) (h : occursIn q t = true) :
    occursIn q (s ++ t) = true := by
  induction s with
  | nil => simpa
  | cons c s ih =>
    have : occursIn q (c :: (s ++ t)) = (leadsWith q (c :: (s ++ t)) || occursIn q (s ++ t)) := rfl
    rw [List.cons_append, this, ih, Bool.or_true]

/-! ### Step lemmas for registerTool -/

theorem tools_applyReg (s : RegState) (r : RegRequest) :
    (applyReg s r).tools =
      setVal r.name { info := infoOf r, handler := r.handler } s.tools := by
  cases h1 : findVal r.category s.toolsByCategory with
  | none => simp [applyReg, registerTool, h1, infoOf]
  | some lst =>
    cases h2 : findVal r.category s.categories with
    | none => simp [applyReg, registerTool, h1, h2, infoOf]
    | some ci => simp [applyReg, registerTool, h1, h2, infoOf]

theorem applyReg_none (s : RegState) (r : RegRequest)
    (h : findVal r.category s.toolsByCategory = none) :
    (applyReg s r).toolsByCategory = s.toolsByCategory ∧
      (applyReg s r).categories = s.categories := by
  simp [applyReg, registerTool, h]

theorem applyReg_tbc_some (s : RegState) (r : RegRequest) (lst : List String)
    (h : findVal r.category s.toolsByCategory = some lst) :
    (applyReg s r).toolsByCategory =
      setVal r.category (lst ++ [r.name]) s.toolsByCategory := by
  cases h2 : findVal r.category s.categories <;> simp [applyReg, registerTool, h, h2]

theorem applyReg_cats_some (s : RegState) (r : RegRequest) (lst : List String) (ci : CategoryInfo)
    (h : findVal r.category s.toolsByCategory = some lst)
    (h2 : findVal r.category s.categories = some ci) :
    (applyReg s r).categories =
      setVal r.category { ci with toolCount := ci.toolCount + 1 } s.categories := by
  simp [applyReg, registerTool, h, h2]

theorem applyReg_cats_none (s : RegState) (r : RegRequest) (lst : List String)
    (h : findVal r.category s.toolsByCategory = some lst)
    (h2 : findVal r.category s.categories = none) :
    (applyReg s r).categories = s.categories := by
  simp [applyReg, registerTool, h, h2]

/-! ### Invariants of reachable registry states -/

theorem foldl_inv (P : RegState → Prop) (step : ∀ s r, P s → P (applyReg s r)) :
    ∀ (rs : List RegRequest) (s : RegState), P s → P (rs.foldl applyReg s)
  | [], _, h => h
  | r :: rs, s, h => foldl_inv P step rs (applyReg s r) (step s r h)

theorem keys_cats_step (s : RegState) (r : RegRequest)
    (h : s.categories.map Prod.fst = predeclaredNames) :
    (applyReg s r).categories.map Prod.fst = predeclaredNames := by
  cases h1 : findVal r.category s.toolsByCategory with
  | none => rw [(applyReg_none s r h1).2, h]
  | some lst =>
    cases h2 : findVal r.category s.categories with
    | none => rw [applyReg_cats_none s r lst h1 h2, h]
    | some ci =>
      rw [applyReg_cats_some s r lst ci h1 h2]
      have hmem : r.category ∈ s.categories.map Prod.fst :=
        (findVal_isSome_iff r.category s.categories).mp (by rw [h2]; rfl)
      rw [setVal_map_fst_of_mem _ _ _ hmem, h]

theorem keys_tbc_step (s : RegState) (r : RegRequest)
    (h : s.toolsByCategory.map Prod.fst = predeclaredNames) :
    (applyReg s r).toolsByCategory.map Prod.fst = predeclaredNames := by
  cases h1 : findVal r.category s.toolsByCategory with
  | none => rw [(applyReg_none s r h1).1, h]
  | some lst =>
    rw [applyReg_tbc_some s r lst h1]
    have hmem : r.category ∈ s.toolsByCategory.map Prod.fst :=
      (findVal_isSome_iff r.category s.toolsByCategory).mp (by rw [h1]; rfl)
    rw [setVal_map_fst_of_mem _ _ _ hmem, h]

theorem tools_nodup_step (s : RegState) (r : RegRequest)
    (h : (s.tools.map Prod.fst).Nodup) :
    ((applyReg s r).tools.map Prod.fst).Nodup := by
  rw [tools_applyReg]
  exact setVal_keys_nodup _ _ _ h

theorem name_key_step (s : RegState) (r : RegRequest)
    (h : ∀ p ∈ s.categories, (p.2 : CategoryInfo).name = p.1) :
    ∀ p ∈ (applyReg s r).categories, (p.2 : CategoryInfo).name = p.1 := by
  cases h1 : findVal r.category s.toolsByCategory with
  | none => rw [(applyReg_none s r h1).2]; exact h
  | some lst =>
    cases h2 : findVal r.category s.categories with
    | none => rw [applyReg_cats_none s r lst h1 h2]; exact h
    | some ci =>
      rw [applyReg_cats_some s r lst ci h1 h2]
      intro p hp
      rcases mem_setVal p r.category _ s.categories hp with hpe | hpo
      · have hci : ci.name = r.category := h (r.category, ci) (findVal_mem _ _ _ h2)
        rw [hpe]
        exact hci
      · exact h p hpo

theorem count_len_step (s : RegState) (r : RegRequest)
    (h : ∀ C ci lst, findVal C s.categories = some ci →
      findVal C s.toolsByCategory = some lst → ci.toolCount = lst.length) :
    ∀ C ci lst, findVal C (applyReg s r).categories = some ci →
      findVal C (applyReg s r).toolsByCategory = some lst → ci.toolCount = lst.length := by
  intro C ci' lst' h1 h2
  cases hb : findVal r.category s.toolsByCategory with
  | none =>
    rw [(applyReg_none s r hb).2] at h1
    rw [(applyReg_none s r hb).1] at h2
    exact h C ci' lst' h1 h2
  | some lst0 =>
    rw [applyReg_tbc_some s r lst0 hb] at h2
    by_cases hC : C = r.category
    · subst hC
      rw [findVal_setVal_self] at h2
      cases hc : findVal r.category s.categories with
      | none =>
        rw [applyReg_cats_none s r lst0 hb hc] at h1
        rw [hc] at h1
        cases h1
      | some ci0 =>
        rw [applyReg_cats_some s r lst0 ci0 hb hc] at h1
        rw [findVal_setVal_self] at h1
        have hci : ci' = { ci0 with toolCount := ci0.toolCount + 1 } := by
          injection h1 with hh
          exact hh.symm
        have hlst : lst' = lst0 ++ [r.name] := by
          injection h2 with hh
          exact hh.symm
        rw [hci, hlst]
        simp [h r.category ci0 lst0 hc hb]
    · rw [findVal_setVal_ne _ _ _ _ hC] at h2
      cases hc : findVal r.category s.categories with
      | none =>
        rw [applyReg_cats_none s r lst0 hb hc] at h1
        exact h C ci' lst' h1 h2
      | some ci0 =>
        rw [applyReg_cats_some s r lst0 ci0 hb hc] at h1
        rw [findVal_setVal_ne _ _ _ _ hC] at h1
        exact h C ci' lst' h1 h2

theorem cat_mem_step (s : RegState) (r : RegRequest)
    (h : ∀ p ∈ s.tools, ∀ lst,
      findVal (p.2 : RegisteredTool).info.category s.toolsByCategory = some lst → p.1 ∈ lst) :
    ∀ p ∈ (applyReg s r).tools, ∀ lst,
      findVal (p.2 : RegisteredTool).info.category (applyReg s r).toolsByCategory = some lst →
        p.1 ∈ lst := by
  intro p hp lst' hl
  rw [tools_applyReg] at hp
  rcases mem_setVal p r.name _ s.tools hp with hpe | hpo
  · rw [hpe] at hl ⊢
    simp only [infoOf] at hl
    cases hb : findVal r.category s.toolsByCategory with
    | none =>
      rw [(applyReg_none s r hb).1, hb] at hl
      cases hl
    | some lst0 =>
      rw [applyReg_tbc_some s r lst0 hb, findVal_setVal_self] at hl
      have : lst' = lst0 ++ [r.name] := by
        injection hl with hh
        exact hh.symm
      rw [this]
      exact List.mem_append_right _ (List.mem_singleton.mpr rfl)
  · cases hb : findVal r.category s.toolsByCategory with
    | none =>
      rw [(applyReg_none s r hb).1] at hl
      exact h p hpo lst' hl
    | some lst0 =>
      rw [applyReg_tbc_some s r lst0 hb] at hl
      by_cases hc : (p.2 : RegisteredTool).info.category = r.category
      · rw [hc, findVal_setVal_self] at hl
        have : lst' = lst0 ++ [r.name] := by
          injection hl with hh
          exact hh.symm
        rw [this]
        exact List.mem_append_left _ (h p hpo lst0 (hc ▸ hb))
      · rw [findVal_setVal_ne _ _ _ _ hc] at hl
        exact h p hpo lst' hl

theorem findVal_mapCats (C : String) (l : List (String × String)) (h : C ∈ l.map Prod.fst) :
    ∃ d, findVal C (l.map (fun cd =>
        (cd.1, ({ name := cd.1, description := cd.2, toolCount := 0 } : CategoryInfo)))) =
      some { name := C, description := d, toolCount := 0 } := by
  induction l with
  | nil => simp at h
  | cons p rest ih =>
    obtain ⟨k, dsc⟩ := p
    by_cases hk : k = C
    · subst hk
      exact ⟨dsc, by simp [findVal]⟩
    · simp only [List.map_cons] at h
      rcases List.mem_cons.mp h with h1 | h1
      · exact absurd h1.symm hk
      · obtain ⟨d, hd⟩ := ih h1
        exact ⟨d, by simp [findVal, hk, hd]⟩

theorem findVal_mapTbc (C : String) (l : List (String × String)) (h : C ∈ l.map Prod.fst) :
    findVal C (l.map (fun cd => (cd.1, ([] : List String)))) = some [] := by
  induction l with
  | nil => simp at h
  | cons p rest ih =>
    obtain ⟨k, dsc⟩ := p
    by_cases hk : k = C
    · subst hk
      simp [findVal]
    · simp only [List.map_cons] at h
      rcases List.mem_cons.mp h with h1 | h1
      · exact absurd h1.symm hk
      · simp [findVal, hk, ih h1]

theorem init_keys_cats : initialState.categories.map Prod.fst = predeclaredNames := by
  simp [initialState, predeclaredNames, List.map_map]

theorem init_keys_tbc : initialState.toolsByCategory.map Prod.fst = predeclaredNames := by
  simp [initialState, predeclaredNames, List.map_map]

theorem reach_keys_cats (rs : List RegRequest) :
    (runRegs rs).categories.map Prod.fst = predeclaredNames := by
  unfold runRegs
  exact foldl_inv (fun s => s.categories.map Prod.fst = predeclaredNames)
    keys_cats_step rs initialState init_keys_cats

theorem reach_keys_tbc (rs : List RegRequest) :
    (runRegs rs).toolsByCategory.map Prod.fst = predeclaredNames := by
  unfold runRegs
  exact foldl_inv (fun s => s.toolsByCategory.map Prod.fst = predeclaredNames)
    keys_tbc_step rs initialState init_keys_tbc

theorem reach_tools_nodup (rs : List RegRequest) :
    ((runRegs rs).tools.map Prod.fst).Nodup := by
  unfold runRegs
  exact foldl_inv (fun s => (s.tools.map Prod.fst).Nodup)
    tools_nodup_step rs initialState (by simp [initialState])

theorem reach_name_key (rs : List RegRequest) :
    ∀ p ∈ (runRegs rs).categories, (p.2 : CategoryInfo).name = p.1 := by
  unfold runRegs
  refine foldl_inv (fun s => ∀ p ∈ s.categories, (p.2 : CategoryInfo).name = p.1)
    name_key_step rs initialState ?_
  intro p hp
  rcases List.mem_map.mp hp with ⟨cd, hcd, hpe⟩
  rw [← hpe]

theorem reach_count_len (rs : List RegRequest) :
    ∀ C ci lst, findVal C (runRegs rs).categories = some ci →
      findVal C (runRegs rs).toolsByCategory = some lst → ci.toolCount = lst.length := by
  unfold runRegs
  refine foldl_inv (fun s => ∀ C ci lst, findVal C s.categories = some ci →
    findVal C s.toolsByCategory = some lst → ci.toolCount = lst.length)
    count_len_step rs initialState ?_
  intro C ci lst h1 h2
  have hci : (C, ci) ∈ initialState.categories := findVal_mem _ _ _ h1
  have hlst : (C, lst) ∈ initialState.toolsByCategory := findVal_mem _ _ _ h2
  rcases List.mem_map.mp hci with ⟨cd, _, hpe⟩
  rcases List.mem_map.mp hlst with ⟨ce, _, hqe⟩
  have h3 : ci.toolCount = 0 := by
    have := congrArg (fun p => (p.2 : CategoryInfo).toolCount) hpe
    simpa using this.symm
  have h4 : lst = [] := by
    have := congrArg Prod.snd hqe
    simpa using this.symm
  rw [h3, h4]
  rfl

theorem reach_cat_mem (rs : List RegRequest) :
    ∀ p ∈ (runRegs rs).tools, ∀ lst,
      findVal (p.2 : RegisteredTool).info.category (runRegs rs).toolsByCategory = some lst →
        p.1 ∈ lst := by
  unfold runRegs
  refine foldl_inv (fun s => ∀ p ∈ s.tools, ∀ lst,
    findVal (p.2 : RegisteredTool).info.category s.toolsByCategory = some lst → p.1 ∈ lst)
    cat_mem_step rs initialState ?_
  intro p hp
  simp [initialState] at hp

theorem predeclared_nodup : predeclaredNames.Nodup := by decide

theorem predeclared_toLower : ∀ C ∈ predeclaredNames, lowerStr C = C := by decide

theorem toolCount_foldl (C : String) :
    ∀ (rs : List RegRequest) (s : RegState) (ci : CategoryInfo),
      s.categories.map Prod.fst = predeclaredNames →
      s.toolsByCategory.map Prod.fst = predeclaredNames →
      findVal C s.categories = some ci →
      ∃ ci', findVal C (rs.foldl applyReg s).categories = some ci' ∧
        ci'.toolCount = ci.toolCount + rs.countP (fun r => decide (r.category = C)) := by
  intro rs
  induction rs with
  | nil =>
    intro s ci h1 h2 h3
    exact ⟨ci, h3, by simp⟩
  | cons r rs ih =>
    intro s ci h1 h2 h3
    have h1' := keys_cats_step s r h1
    have h2' := keys_tbc_step s r h2
    simp only [List.foldl_cons]
    by_cases hrc : r.category = C
    · have hC : C ∈ predeclaredNames := by
        rw [← h1]
        exact (findVal_isSome_iff C s.categories).mp (by rw [h3]; rfl)
      obtain ⟨lst0, hlst0⟩ : ∃ l, findVal r.category s.toolsByCategory = some l := by
        have hs : (findVal r.category s.toolsByCategory).isSome = true := by
          rw [findVal_isSome_iff, h2, hrc]
          exact hC
        exact Option.isSome_iff_exists.mp hs
      have hcats := applyReg_cats_some s r lst0 ci hlst0 (by rw [hrc]; exact h3)
      have h3' : findVal C (applyReg s r).categories =
          some { ci with toolCount := ci.toolCount + 1 } := by
        rw [hcats, hrc, findVal_setVal_self]
      obtain ⟨ci', hci', hcount⟩ :=
        ih (applyReg s r) { ci with toolCount := ci.toolCount + 1 } h1' h2' h3'
      refine ⟨ci', hci', ?_⟩
      rw [hcount]
      simp only [List.countP_cons, hrc]
      simp
      omega
    · have hkeep : findVal C (applyReg s r).categories = findVal C s.categories := by
        cases hb : findVal r.category s.toolsByCategory with
        | none => rw [(applyReg_none s r hb).2]
        | some lst0 =>
          cases hc : findVal r.category s.categories with
          | none => rw [applyReg_cats_none s r lst0 hb hc]
          | some ci0 =>
            rw [applyReg_cats_some s r lst0 ci0 hb hc,
              findVal_setVal_ne _ _ _ _ (fun hh => hrc hh.symm)]
      obtain ⟨ci', hci', hcount⟩ := ih (applyReg s r) ci h1' h2' (by rw [hkeep]; exact h3)
      refine ⟨ci', hci', ?_⟩
      rw [hcount]
      simp [List.countP_cons, hrc]

/-! ### Sorting lemmas for searchTools -/

theorem mem_insertDesc (a x : ScoredTool) (l : List ScoredTool) :
    x ∈ insertDesc a l ↔ x = a ∨ x ∈ l := by
  induction l with
  | nil => simp [insertDesc]
  | cons b l ih =>
    by_cases hb : b.score < a.score
    · simp [insertDesc, hb]
    · simp only [insertDesc, if_neg hb, List.mem_cons, ih]
      tauto

theorem mem_sortDesc (x : ScoredTool) (l : List ScoredTool) :
    x ∈ sortDesc l ↔ x ∈ l := by
  induction l with
  | nil => simp [sortDesc]
  | cons a l ih =>
    simp only [sortDesc, mem_insertDesc, List.mem_cons, ih]

theorem pairwise_insertDesc (a : ScoredTool) (l : List ScoredTool)
    (h : l.Pairwise (fun u v => v.score ≤ u.score)) :
    (insertDesc a l).Pairwise (fun u v => v.score ≤ u.score) := by
  induction l with
  | nil => simp [insertDesc]
  | cons b l ih =>
    have hp := List.pairwise_cons.mp h
    by_cases hb : b.score < a.score
    · simp only [insertDesc, if_pos hb]
      refine List.pairwise_cons.mpr ⟨?_, h⟩
      intro x hx
      rcases List.mem_cons.mp hx with h1 | h1
      · rw [h1]
        exact le_of_lt hb
      · exact le_trans (hp.1 x h1) (le_of_lt hb)
    · simp only [insertDesc, if_neg hb]
      refine List.pairwise_cons.mpr ⟨?_, ih hp.2⟩
      intro x hx
      rcases (mem_insertDesc a x l).mp hx with h1 | h1
      · rw [h1]
        exact Nat.le_of_not_lt hb
      · exact hp.1 x h1

theorem pairwise_sortDesc (l : List ScoredTool) :
    (sortDesc l).Pairwise (fun u v => v.score ≤ u.score) := by
  induction l with
  | nil => simp [sortDesc]
  | cons a l ih => exact pairwise_insertDesc a (sortDesc l) ih

theorem mem_searchScored (s : RegState) (q : String) (x : ScoredTool) :
    x ∈ searchScored s q ↔ ∃ p, p ∈ s.tools ∧ 0 < scoreOf q p.1 p.2.info ∧
      x = { score := scoreOf q p.1 p.2.info
          , tool := { name := p.1, description := p.2.info.description } } := by
  unfold searchScored
  rw [mem_sortDesc, List.mem_filterMap]
  constructor
  · rintro ⟨p, hp, hf⟩
    by_cases hsc : 0 < scoreOf q p.1 p.2.info
    · refine ⟨p, hp, hsc, ?_⟩
      simp only [if_pos hsc] at hf
      injection hf with hh
      exact hh.symm
    · simp [hsc] at hf
  · rintro ⟨p, hp, hsc, hx⟩
    exact ⟨p, hp, by simp [hsc, hx]⟩

theorem search_pre_single (tools : List (String × RegisteredTool)) (q : String)
    (p : String × RegisteredTool)
    (hnd : (tools.map Prod.fst).Nodup) (hp : p ∈ tools)
    (hpos : 0 < scoreOf q p.1 p.2.info)
    (hothers : ∀ p', p' ∈ tools → p'.1 ≠ p.1 → scoreOf q p'.1 p'.2.info = 0) :
    tools.filterMap (fun e =>
      let sc := scoreOf q e.1 e.2.info
      if 0 < sc then
        some ({ score := sc, tool := { name := e.1, description := e.2.info.description } } : ScoredTool)
      else none)
    = [{ score := scoreOf q p.1 p.2.info
       , tool := { name := p.1, description := p.2.info.description } }] := by
  induction tools with
  | nil => simp at hp
  | cons a t ih =>
    simp only [List.map_cons, List.nodup_cons] at hnd
    rcases List.mem_cons.mp hp with hpa | hpt
    · cases hpa
      rw [List.filterMap_cons]
      simp only [if_pos hpos]
      have hrest : t.filterMap (fun e =>
          let sc := scoreOf q e.1 e.2.info
          if 0 < sc then
            some ({ score := sc, tool := { name := e.1, description := e.2.info.description } } : ScoredTool)
          else none) = [] := by
        rw [List.filterMap_eq_nil_iff]
        intro e he
        have hne : e.1 ≠ p.1 := by
          intro hh
          exact hnd.1 (hh ▸ List.mem_map.mpr ⟨e, he, rfl⟩)
        have h0 := hothers e (List.mem_cons_of_mem p he) hne
        simp [h0]
      rw [hrest]
    · have hane : a.1 ≠ p.1 := by
        intro hh
        exact hnd.1 (hh ▸ List.mem_map.mpr ⟨p, hpt, rfl⟩)
      have ha0 : scoreOf q a.1 a.2.info = 0 := hothers a (List.mem_cons_self a t) hane
      rw [List.filterMap_cons]
      simp only [ha0]
      simp only [Nat.lt_irrefl, if_false]
      exact ih hnd.2 hpt (fun p' hp' => hothers p' (List.mem_cons_of_mem a hp'))

theorem nodup_subset_dedup_length (l1 l2 : List String)
    (hnd : l1.Nodup) (hsub : ∀ x ∈ l1, x ∈ l2) : l1.length ≤ l2.dedup.length := by
  have h1 : l1.toFinset.card = l1.length := List.toFinset_card_of_nodup hnd
  have h2 : l2.toFinset.card = l2.dedup.length := List.card_toFinset l2
  have hsub2 : l1.toFinset ⊆ l2.toFinset := by
    intro x hx
    rw [List.mem_toFinset] at hx ⊢
    exact hsub x hx
  calc l1.length = l1.toFinset.card := h1.symm
    _ ≤ l2.toFinset.card := Finset.card_le_card hsub2
    _ = l2.dedup.length := h2

theorem dedup_length_lt_of_dup (l : List String) (hnot : ¬ l.Nodup) :
    l.dedup.length < l.length := by
  have hle : l.dedup.length ≤ l.length := (List.dedup_sublist l).length_le
  rcases lt_or_eq_of_le hle with h | h
  · exact h
  · exact absurd ((List.dedup_sublist l).eq_of_length h ▸ List.nodup_dedup l) hnot

theorem not_nodup_of_two_le_count (l : List String) (x : String) (h : 2 ≤ l.count x) :
    ¬ l.Nodup := by
  intro hnd
  have := List.nodup_iff_count_le_one.mp hnd x
  omega

theorem notFoundText_mentions (N : String) :
    occursIn ("search_tools".data) (notFoundText N).data = true ∧
      occursIn ("list_tools".data) (notFoundText N).data = true := by
  have hdecomp : (notFoundText N).data =
      ("Tool " ++ squo ++ N ++ squo).data ++
        (" not found. Use search_tools or list_tools to find valid tool names.").data := rfl
  constructor
  · rw [hdecomp]
    exact occursIn_append_right _ _ _ (by decide)
  · rw [hdecomp]
    exact occursIn_append_right _ _ _ (by decide)

/-! ### Claims -/

/-- Claim C1: for every registered tool whose handler faults (synchronous
throw or rejected promise) on a parameter bag, execute_tool catches the
fault and returns an error-flagged result whose structuredContent is
success false with the exception message; being a total function of the
embedding, it propagates no exception. -/
theorem execute_tool_fault_containment (s : RegState) (N : String) (P : ParamBag)
    (h : Handler) (msg : String)
    (hh : getHandler s N = some h) (he : h P = Except.error msg) :
    executeTool s N P =
      { content := [{ type := "text", text := "Tool execution failed: " ++ msg }]
      , structuredContent := some [("success", .bool false), ("error", .str msg)]
      , isError := some true } := by
  simp [executeTool, hh, he]

theorem execute_tool_fault_containment_witness :
    executeTool (runRegs [throwReq]) "boom_tool" [] =
      { content := [{ type := "text", text := "Tool execution failed: kaboom" }]
      , structuredContent := some [("success", .bool false), ("error", .str "kaboom")]
      , isError := some true } :=
  execute_tool_fault_containment (runRegs [throwReq]) "boom_tool" [] throwHandler "kaboom"
    rfl rfl

/-- Claim C3: for every registered tool whose handler resolves to a result
R (success or business-level failure), execute_tool returns exactly R,
unmodified. -/
theorem execute_tool_passthrough (s : RegState) (N : String) (P : ParamBag)
    (h : Handler) (R : ToolResult)
    (hh : getHandler s N = some h) (hr : h P = Except.ok R) :
    executeTool s N P = R := by
  simp [executeTool, hh, hr]

theorem execute_tool_passthrough_witness :
    executeTool exampleState "ban_member" [] =
      { content := [{ type := "text", text := "banned" }]
      , structuredContent := some [("success", .bool true)]
      , isError := none } :=
  execute_tool_passthrough exampleState "ban_member" [] banHandler _ rfl rfl

/-- Claim C4: for every name that is not a key of the tool table,
get_tool_schema and execute_tool both return an error-flagged result whose
text mentions the discovery operations search_tools and list_tools, and
execute_tool additionally carries the structured success-false payload;
neither throws (both are total). -/
theorem unknown_name_safety (s : RegState) (N : String) (P : ParamBag)
    (hN : findVal N s.tools = none) :
    getToolSchemaTool s N =
      { content := [{ type := "text", text := notFoundText N }]
      , structuredContent := none
      , isError := some true }
    ∧ executeTool s N P =
      { content := [{ type := "text", text := notFoundText N }]
      , structuredContent := some
          [("success", .bool false), ("error", .str (notFoundMsg N))]
      , isError := some true }
    ∧ occursIn ("search_tools".data) (notFoundText N).data = true
    ∧ occursIn ("list_tools".data) (notFoundText N).data = true := by
  refine ⟨?_, ?_, (notFoundText_mentions N).1, (notFoundText_mentions N).2⟩
  · have hs : getToolSchema s N = none := by simp [getToolSchema, hN]
    simp [getToolSchemaTool, hs]
  · have hs : getHandler s N = none := by simp [getHandler, hN]
    simp [executeTool, hs]

theorem unknown_name_safety_witness :
    getToolSchemaTool initialState "does_not_exist" =
      { content := [{ type := "text", text := notFoundText "does_not_exist" }]
      , structuredContent := none
      , isError := some true }
    ∧ executeTool initialState "does_not_exist" [] =
      { content := [{ type := "text", text := notFoundText "does_not_exist" }]
      , structuredContent := some
          [("success", .bool false), ("error", .str (notFoundMsg "does_not_exist"))]
      , isError := some true }
    ∧ occursIn ("search_tools".data) (notFoundText "does_not_exist").data = true
    ∧ occursIn ("list_tools".data) (notFoundText "does_not_exist").data = true :=
  unknown_name_safety initialState "does_not_exist" [] rfl

/-- Claim C8: listTools is determined by the lowercase form of its
category argument, returns the empty sequence for an unknown lowercased
category without error, and in particular finds ban_member under the mixed
case query MODERATION. -/
theorem list_tools_case_insensitive (s : RegState) (c1 c2 : String)
    (h : lowerStr c1 = lowerStr c2) :
    listTools s c1 = listTools s c2
    ∧ (findVal (lowerStr c1) s.toolsByCategory = none → listTools s c1 = [])
    ∧ listTools exampleState "MODERATION" =
        [{ name := "ban_member", description := "Ban a user from the server" }] := by
  refine ⟨?_, ?_, ?_⟩
  · unfold listTools
    rw [h]
  · intro hn
    unfold listTools
    rw [hn]
  · rfl

theorem list_tools_case_insensitive_witness :
    listTools exampleState "PLUGINS" = listTools exampleState "plugins"
    ∧ listTools exampleState "PLUGINS" = [] :=
  ⟨(list_tools_case_insensitive exampleState "PLUGINS" "plugins" (by decide)).1,
   (list_tools_case_insensitive exampleState "PLUGINS" "plugins" (by decide)).2.1 (by decide)⟩

/-- Claim C6 counterexample: registering my_tool under the category
plugins, which is not predeclared, leaves listTools "plugins" without any
entry named my_tool (the claim asserts one exists for every category
string), because registerTool silently skips the category index for
unknown categories. -/
theorem registration_roundtrip_counterexample :
    ¬ ∃ e, e ∈ listTools (applyReg initialState plugReq) "plugins" ∧ e.name = "my_tool" := by
  have hempty : listTools (applyReg initialState plugReq) "plugins" = [] := rfl
  rintro ⟨e, he, _⟩
  rw [hempty] at he
  simp at he

/-- Claim C6 (amended): for a tool registered with name N and a category
Cat that is one of the predeclared category names, from any reachable
registry state, getToolSchema(N) afterwards carries category Cat and
listTools(Cat) contains an entry named N. -/
theorem registration_roundtrip_amended (rs : List RegRequest) (r : RegRequest)
    (hC : r.category ∈ predeclaredNames) :
    (∃ info, getToolSchema (applyReg (runRegs rs) r) r.name = some info ∧
        info.category = r.category)
    ∧ ∃ e, e ∈ listTools (applyReg (runRegs rs) r) r.category ∧ e.name = r.name := by
  constructor
  · refine ⟨infoOf r, ?_, rfl⟩
    simp [getToolSchema, tools_applyReg, findVal_setVal_self]
  · have hlow : lowerStr r.category = r.category := predeclared_toLower r.category hC
    have hsome : (findVal r.category (runRegs rs).toolsByCategory).isSome = true := by
      rw [findVal_isSome_iff, reach_keys_tbc rs]
      exact hC
    obtain ⟨lst, hlst⟩ := Option.isSome_iff_exists.mp hsome
    have htbc' := applyReg_tbc_some (runRegs rs) r lst hlst
    unfold listTools
    rw [hlow, htbc', findVal_setVal_self]
    exact ⟨_, List.mem_map.mpr
      ⟨r.name, List.mem_append_right _ (List.mem_singleton.mpr rfl), rfl⟩, rfl⟩

theorem registration_roundtrip_amended_witness :
    (∃ info, getToolSchema (applyReg (runRegs []) banReq) "ban_member" = some info ∧
        info.category = "moderation")
    ∧ ∃ e, e ∈ listTools (applyReg (runRegs []) banReq) "moderation" ∧
        e.name = "ban_member" :=
  registration_roundtrip_amended [] banReq (by decide)

theorem serializeShape_eq_map (shape : List (String × ZodType)) :
    serializeShape shape = shape.map (fun p => (p.1, JsonValue.obj (zodToJsonSchema p.2))) := by
  induction shape with
  | nil => simp [serializeShape]
  | cons p rest ih =>
    obtain ⟨k, t⟩ := p
    simp [serializeShape, ih]

theorem zodListToJson_eq_map (l : List ZodType) :
    zodListToJson l = l.map (fun t => JsonValue.obj (zodToJsonSchema t)) := by
  induction l with
  | nil => simp [zodListToJson]
  | cons t ts ih => simp [zodListToJson, ih]

/-- Claim C9: the schema walker lowers primitives to a type tag plus their
bounds (with the integer override), wrappers set optional, default and
nullable on the lowered inner schema, enums and unions lower to enum and
oneOf forms, objects recurse into properties, and every unrecognized
construct lowers to the lowercased type-name fallback instead of failing
(the walker is a total function). -/
theorem schema_serialization (inner : ZodType) (v : JsonValue) (k : String)
    (hk1 : k ≠ "optional") (hk2 : k ≠ "default") (hk3 : k ≠ "nullable") :
    zodToJsonSchema (.zstring [] none) = [("type", .str "string")]
    ∧ zodToJsonSchema (.zstring [⟨"min", .num 1⟩, ⟨"max", .num 5⟩] none) =
        [("type", .str "string"), ("minLength", .num 1), ("maxLength", .num 5)]
    ∧ zodToJsonSchema (.znumber [⟨"int", .null⟩, ⟨"min", .num 0⟩, ⟨"max", .num 10⟩] none) =
        [("type", .str "integer"), ("minimum", .num 0), ("maximum", .num 10)]
    ∧ zodToJsonSchema (.zboolean none) = [("type", .str "boolean")]
    ∧ (∀ minv maxv, zodToJsonSchema (.zarray inner (some minv) (some maxv) none) =
        setVal "minItems" minv (setVal "maxItems" maxv
          [("type", .str "array"), ("items", .obj (zodToJsonSchema inner))]))
    ∧ findVal "optional" (zodToJsonSchema (.zoptional inner none)) = some (.bool true)
    ∧ findVal k (zodToJsonSchema (.zoptional inner none)) = findVal k (zodToJsonSchema inner)
    ∧ findVal "default" (zodToJsonSchema (.zdefault inner v none)) = some v
    ∧ findVal k (zodToJsonSchema (.zdefault inner v none)) = findVal k (zodToJsonSchema inner)
    ∧ (∀ vals, zodToJsonSchema (.zenum vals none) =
        [("type", .str "string"), ("enum", .arr (vals.map .str))])
    ∧ (∀ opts, zodToJsonSchema (.zunion opts none) =
        [("oneOf", .arr (opts.map (fun t => JsonValue.obj (zodToJsonSchema t))))])
    ∧ findVal "nullable" (zodToJsonSchema (.znullable inner none)) = some (.bool true)
    ∧ findVal k (zodToJsonSchema (.znullable inner none)) = findVal k (zodToJsonSchema inner)
    ∧ (∀ shape, zodToJsonSchema (.zobject shape none) =
        [("type", .str "object"),
         ("properties", .obj (shape.map (fun p => (p.1, JsonValue.obj (zodToJsonSchema p.2)))))])
    ∧ (∀ tn dsc, zodToJsonSchema (.zother tn dsc) =
        applyDescr dsc [("type", .str (stripZodLower tn))])
    ∧ zodToJsonSchema (.zother "ZodBigInt" none) = [("type", .str "bigint")] := by
  refine ⟨?_, ?_, ?_, ?_, ?_, ?_, ?_, ?_, ?_, ?_, ?_, ?_, ?_, ?_, ?_, ?_⟩
  · simp [zodToJsonSchema, handleZodString, applyDescr]
  · simp only [zodToJsonSchema, applyDescr]
    rfl
  · simp only [zodToJsonSchema, applyDescr]
    rfl
  · simp [zodToJsonSchema, applyDescr]
  · intro minv maxv
    simp [zodToJsonSchema, applyDescr, applyMinItems, applyMaxItems]
  · simp [zodToJsonSchema, applyDescr, findVal_setVal_self]
  · simp [zodToJsonSchema, applyDescr, findVal_setVal_ne _ _ _ _ hk1]
  · simp [zodToJsonSchema, applyDescr, findVal_setVal_self]
  · simp [zodToJsonSchema, applyDescr, findVal_setVal_ne _ _ _ _ hk2]
  · intro vals
    simp [zodToJsonSchema, applyDescr]
  · intro opts
    simp [zodToJsonSchema, applyDescr, zodListToJson_eq_map]
  · simp [zodToJsonSchema, applyDescr, findVal_setVal_self]
  · simp [zodToJsonSchema, applyDescr, findVal_setVal_ne _ _ _ _ hk3]
  · intro shape
    simp [zodToJsonSchema, applyDescr, serializeShape_eq_map]
  · intro tn dsc
    simp [zodToJsonSchema]
  · simp only [zodToJsonSchema, applyDescr]
    rfl

theorem schema_serialization_witness :
    findVal "type" (zodToJsonSchema (.zoptional (.zboolean none) none)) =
      findVal "type" (zodToJsonSchema (.zboolean none)) :=
  (schema_serialization (.zboolean none) (.num 7) "type"
    (by decide) (by decide) (by decide)).2.2.2.2.2.2.1

theorem key_inj (l : List (String × α)) (hnd : (l.map Prod.fst).Nodup)
    (p p' : String × α) (hp : p ∈ l) (hp' : p' ∈ l) (h : p.1 = p'.1) : p = p' := by
  obtain ⟨a, b⟩ := p
  obtain ⟨a', b'⟩ := p'
  have h2 : a = a' := h
  subst h2
  have h3 : findVal a l = some b := mem_findVal a b l hnd hp
  have h4 : findVal a l = some b' := mem_findVal a b' l hnd hp'
  rw [h3] at h4
  injection h4 with hb
  rw [hb]

/-- Claim C2: searchTools scores each tool additively (+3 name, +2 title,
+1 description, case-insensitive substring), excludes zero scores, keeps
every positive score, orders results by descending score, and truncates to
the limit; a tool matching nowhere never appears, and the unique matching
tool is the sole result. -/
theorem search_tools_ranking (rs : List RegRequest) (q : String) (L : Nat) :
    (searchTools (runRegs rs) q L).length ≤ L
    ∧ (searchScored (runRegs rs) q).Pairwise (fun u v => v.score ≤ u.score)
    ∧ (∀ x, x ∈ searchTools (runRegs rs) q L →
        ∃ p, p ∈ (runRegs rs).tools ∧
          x = { name := p.1, description := p.2.info.description } ∧
          0 < scoreOf q p.1 p.2.info)
    ∧ (∀ p, p ∈ (runRegs rs).tools → 0 < scoreOf q p.1 p.2.info →
        ∃ st, st ∈ searchScored (runRegs rs) q ∧
          st.score = scoreOf q p.1 p.2.info ∧
          st.tool = { name := p.1, description := p.2.info.description })
    ∧ (∀ p, p ∈ (runRegs rs).tools → scoreOf q p.1 p.2.info = 0 →
        ({ name := p.1, description := p.2.info.description } : ToolSummary) ∉
          searchTools (runRegs rs) q L)
    ∧ (∀ p, p ∈ (runRegs rs).tools →
        occursIn (lowerData q) (lowerData p.1) = true →
        (∀ pp, pp ∈ (runRegs rs).tools → pp.1 ≠ p.1 → scoreOf q pp.1 pp.2.info = 0) →
        1 ≤ L →
        searchTools (runRegs rs) q L =
          [{ name := p.1, description := p.2.info.description }]) := by
  refine ⟨?_, ?_, ?_, ?_, ?_, ?_⟩
  · unfold searchTools
    rw [List.length_map, List.length_take]
    exact min_le_left _ _
  · unfold searchScored
    exact pairwise_sortDesc _
  · intro x hx
    unfold searchTools at hx
    rcases List.mem_map.mp hx with ⟨st, hst, hxe⟩
    have hst2 : st ∈ searchScored (runRegs rs) q := List.take_subset _ _ hst
    rcases (mem_searchScored _ _ _).mp hst2 with ⟨p, hp, hpos, hste⟩
    refine ⟨p, hp, ?_, hpos⟩
    rw [← hxe, hste]
  · intro p hp hpos
    refine ⟨{ score := scoreOf q p.1 p.2.info
            , tool := { name := p.1, description := p.2.info.description } }, ?_, rfl, rfl⟩
    exact (mem_searchScored _ _ _).mpr ⟨p, hp, hpos, rfl⟩
  · intro p hp h0 hmem
    unfold searchTools at hmem
    rcases List.mem_map.mp hmem with ⟨st, hst, hxe⟩
    have hst2 : st ∈ searchScored (runRegs rs) q := List.take_subset _ _ hst
    rcases (mem_searchScored _ _ _).mp hst2 with ⟨p', hp', hpos', hste⟩
    have hname : p'.1 = p.1 := by
      rw [hste] at hxe
      exact congrArg ToolSummary.name hxe
    have hpp : p' = p := key_inj _ (reach_tools_nodup rs) p' p hp' hp hname
    rw [hpp] at hpos'
    omega
  · intro p hp hq hothers hL
    have hpos : 0 < scoreOf q p.1 p.2.info := by
      have h3 : (if occursIn (lowerData q) (lowerData p.1) then 3 else 0) = 3 := by
        simp [hq]
      unfold scoreOf
      rw [h3]
      omega
    unfold searchTools searchScored
    rw [search_pre_single (runRegs rs).tools q p (reach_tools_nodup rs) hp hpos hothers]
    have hsort : sortDesc [{ score := scoreOf q p.1 p.2.info
                           , tool := { name := p.1, description := p.2.info.description } }] =
        [{ score := scoreOf q p.1 p.2.info
         , tool := { name := p.1, description := p.2.info.description } }] := rfl
    rw [hsort, List.take_of_length_le (by simpa using hL)]
    rfl

theorem search_tools_ranking_witness :
    searchTools exampleState "ban" 20 =
      [{ name := "ban_member", description := "Ban a user from the server" }] :=
  (search_tools_ranking [banReq] "ban" 20).2.2.2.2.2
    ("ban_member", { info := infoOf banReq, handler := banHandler })
    (List.Mem.head _) (by decide)
    (by
      intro pp hpp hne
      cases List.mem_singleton.mp hpp
      exact absurd rfl hne)
    (by decide)

/-- Claim C5: a category name appears in listCategories exactly when it is
predeclared and its toolCount is positive, which in turn holds exactly
when at least one registerTool call used that exact name; a never
predeclared name therefore never appears. -/
theorem category_visibility (rs : List RegRequest) (C : String) :
    ((∃ ci, ci ∈ listCategories (runRegs rs) ∧ ci.name = C) ↔
      (C ∈ predeclaredNames ∧ ∃ r, r ∈ rs ∧ r.category = C))
    ∧ ((∃ ci, findVal C (runRegs rs).categories = some ci ∧ 0 < ci.toolCount) ↔
      (C ∈ predeclaredNames ∧ ∃ r, r ∈ rs ∧ r.category = C)) := by
  have hnd : ((runRegs rs).categories.map Prod.fst).Nodup := by
    rw [reach_keys_cats rs]
    exact predeclared_nodup
  have hcount : (∃ ci, findVal C (runRegs rs).categories = some ci ∧ 0 < ci.toolCount) ↔
      (C ∈ predeclaredNames ∧ ∃ r, r ∈ rs ∧ r.category = C) := by
    constructor
    · rintro ⟨ci, hci, hpos⟩
      have hC : C ∈ predeclaredNames := by
        rw [← reach_keys_cats rs]
        exact (findVal_isSome_iff C (runRegs rs).categories).mp (by rw [hci]; rfl)
      obtain ⟨d, hinit⟩ := findVal_mapCats C categoryDefs hC
      obtain ⟨ci', hci', hcnt⟩ := toolCount_foldl C rs initialState
        { name := C, description := d, toolCount := 0 }
        init_keys_cats init_keys_tbc hinit
      have hci2 : ci' = ci := by
        have : findVal C (runRegs rs).categories = some ci' := hci'
        rw [hci] at this
        injection this with hh
        exact hh.symm
      rw [hci2] at hcnt
      have hpos2 : 0 < rs.countP (fun r => decide (r.category = C)) := by
        simp at hcnt
        omega
      rcases List.countP_pos_iff.mp hpos2 with ⟨r, hr, hrc⟩
      exact ⟨hC, r, hr, of_decide_eq_true hrc⟩
    · rintro ⟨hC, r, hr, hrc⟩
      obtain ⟨d, hinit⟩ := findVal_mapCats C categoryDefs hC
      obtain ⟨ci', hci', hcnt⟩ := toolCount_foldl C rs initialState
        { name := C, description := d, toolCount := 0 }
        init_keys_cats init_keys_tbc hinit
      refine ⟨ci', hci', ?_⟩
      have hpos : 0 < rs.countP (fun r => decide (r.category = C)) :=
        List.countP_pos_iff.mpr ⟨r, hr, decide_eq_true hrc⟩
      omega
  refine ⟨?_, hcount⟩
  constructor
  · rintro ⟨ci, hmem, hname⟩
    rcases List.mem_filter.mp hmem with ⟨hmem2, hposb⟩
    rcases List.mem_map.mp hmem2 with ⟨pr, hpr, hpr2⟩
    have hkey : pr.1 = C := by
      rw [← hname, ← hpr2]
      exact (reach_name_key rs pr hpr).symm
    have hfind : findVal C (runRegs rs).categories = some ci := by
      rw [← hkey, ← hpr2]
      exact mem_findVal pr.1 pr.2 _ hnd hpr
    exact hcount.mp ⟨ci, hfind, of_decide_eq_true hposb⟩
  · intro hr
    rcases hcount.mpr hr with ⟨ci, hfind, hpos⟩
    have hpr : (C, ci) ∈ (runRegs rs).categories := findVal_mem _ _ _ hfind
    refine ⟨ci, List.mem_filter.mpr ⟨List.mem_map.mpr ⟨(C, ci), hpr, rfl⟩, ?_⟩, ?_⟩
    · exact decide_eq_true hpos
    · exact reach_name_key rs (C, ci) hpr

theorem category_visibility_witness :
    ∃ ci, ci ∈ listCategories exampleState ∧ ci.name = "moderation" :=
  (category_visibility [banReq] "moderation").1.mpr
    ⟨by decide, banReq, List.Mem.head _, rfl⟩

/-- Claim C10: for every predeclared category, the stored toolCount equals
the length of its tool-name list in every reachable state; both are zero
at construction, and one registerTool call either appends the name and
increments the count (matching category) or leaves both unchanged. -/
theorem category_count_invariant (rs : List RegRequest) (C : String)
    (hC : C ∈ predeclaredNames) :
    (∃ ci lst, findVal C (runRegs rs).categories = some ci ∧
        findVal C (runRegs rs).toolsByCategory = some lst ∧ ci.toolCount = lst.length)
    ∧ (∃ ci, findVal C initialState.categories = some ci ∧ ci.toolCount = 0)
    ∧ findVal C initialState.toolsByCategory = some []
    ∧ (∀ r ci lst, findVal C (runRegs rs).categories = some ci →
        findVal C (runRegs rs).toolsByCategory = some lst →
        (r.category = C →
          findVal C (applyReg (runRegs rs) r).categories =
            some { ci with toolCount := ci.toolCount + 1 } ∧
          findVal C (applyReg (runRegs rs) r).toolsByCategory = some (lst ++ [r.name]))
        ∧ (r.category ≠ C →
          findVal C (applyReg (runRegs rs) r).categories = some ci ∧
          findVal C (applyReg (runRegs rs) r).toolsByCategory = some lst)) := by
  refine ⟨?_, ?_, ?_, ?_⟩
  · have hc : (findVal C (runRegs rs).categories).isSome = true := by
      rw [findVal_isSome_iff, reach_keys_cats rs]
      exact hC
    have hb : (findVal C (runRegs rs).toolsByCategory).isSome = true := by
      rw [findVal_isSome_iff, reach_keys_tbc rs]
      exact hC
    obtain ⟨ci, hci⟩ := Option.isSome_iff_exists.mp hc
    obtain ⟨lst, hlst⟩ := Option.isSome_iff_exists.mp hb
    exact ⟨ci, lst, hci, hlst, reach_count_len rs C ci lst hci hlst⟩
  · obtain ⟨d, hinit⟩ := findVal_mapCats C categoryDefs hC
    exact ⟨{ name := C, description := d, toolCount := 0 }, hinit, rfl⟩
  · exact findVal_mapTbc C categoryDefs hC
  · intro r ci lst h1 h2
    constructor
    · intro hrc
      have hb : findVal r.category (runRegs rs).toolsByCategory = some lst := by
        rw [hrc]
        exact h2
      have hc : findVal r.category (runRegs rs).categories = some ci := by
        rw [hrc]
        exact h1
      constructor
      · rw [applyReg_cats_some _ r lst ci hb hc, hrc, findVal_setVal_self]
      · rw [applyReg_tbc_some _ r lst hb, hrc, findVal_setVal_self]
    · intro hrc
      have hne : C ≠ r.category := fun hh => hrc hh.symm
      cases hb : findVal r.category (runRegs rs).toolsByCategory with
      | none =>
        refine ⟨?_, ?_⟩
        · rw [(applyReg_none _ r hb).2]
          exact h1
        · rw [(applyReg_none _ r hb).1]
          exact h2
      | some lst0 =>
        cases hc : findVal r.category (runRegs rs).categories with
        | none =>
          refine ⟨?_, ?_⟩
          · rw [applyReg_cats_none _ r lst0 hb hc]
            exact h1
          · rw [applyReg_tbc_some _ r lst0 hb, findVal_setVal_ne _ _ _ _ hne]
            exact h2
        | some ci0 =>
          refine ⟨?_, ?_⟩
          · rw [applyReg_cats_some _ r lst0 ci0 hb hc, findVal_setVal_ne _ _ _ _ hne]
            exact h1
          · rw [applyReg_tbc_some _ r lst0 hb, findVal_setVal_ne _ _ _ _ hne]
            exact h2

theorem category_count_invariant_witness :
    ∃ ci lst, findVal "moderation" (runRegs [banReq]).categories = some ci ∧
      findVal "moderation" (runRegs [banReq]).toolsByCategory = some lst ∧
      ci.toolCount = lst.length :=
  (category_count_invariant [banReq] "moderation" (by decide)).1

/-- Claim C7: re-registering an existing name under its predeclared
category replaces the entry and handler in the name table (lookups return
the second registration), appends a duplicate occurrence of the name to
the category list, increments the category count again, and leaves that
count strictly above the number of distinct name-table entries whose
category is C. -/
theorem duplicate_registration (rs : List RegRequest) (req : RegRequest) (C : String)
    (hC : C ∈ predeclaredNames) (hreqC : req.category = C)
    (t : RegisteredTool)
    (ht : findVal req.name (runRegs rs).tools = some t)
    (htc : t.info.category = C) :
    (getToolSchema (applyReg (runRegs rs) req) req.name = some (infoOf req) ∧
      getHandler (applyReg (runRegs rs) req) req.name = some req.handler)
    ∧ (∃ lst, findVal C (runRegs rs).toolsByCategory = some lst ∧
        findVal C (applyReg (runRegs rs) req).toolsByCategory = some (lst ++ [req.name]) ∧
        2 ≤ (lst ++ [req.name]).count req.name)
    ∧ (∃ ci ci', findVal C (runRegs rs).categories = some ci ∧
        findVal C (applyReg (runRegs rs) req).categories = some ci' ∧
        ci'.toolCount = ci.toolCount + 1 ∧
        ((applyReg (runRegs rs) req).tools.filter
            (fun p => decide ((p.2 : RegisteredTool).info.category = C))).length <
          ci'.toolCount) := by
  have hbs : (findVal C (runRegs rs).toolsByCategory).isSome = true := by
    rw [findVal_isSome_iff, reach_keys_tbc rs]
    exact hC
  obtain ⟨lst, hlst⟩ := Option.isSome_iff_exists.mp hbs
  have hcs : (findVal C (runRegs rs).categories).isSome = true := by
    rw [findVal_isSome_iff, reach_keys_cats rs]
    exact hC
  obtain ⟨ci, hci⟩ := Option.isSome_iff_exists.mp hcs
  have hb : findVal req.category (runRegs rs).toolsByCategory = some lst := by
    rw [hreqC]
    exact hlst
  have hc : findVal req.category (runRegs rs).categories = some ci := by
    rw [hreqC]
    exact hci
  have hmemtools : (req.name, t) ∈ (runRegs rs).tools := findVal_mem _ _ _ ht
  have hmemlst : req.name ∈ lst := by
    refine reach_cat_mem rs (req.name, t) hmemtools lst ?_
    rw [htc]
    exact hlst
  have htbc' := applyReg_tbc_some (runRegs rs) req lst hb
  have hcats' := applyReg_cats_some (runRegs rs) req lst ci hb hc
  have hfind_tbc' : findVal C (applyReg (runRegs rs) req).toolsByCategory =
      some (lst ++ [req.name]) := by
    rw [htbc', hreqC, findVal_setVal_self]
  have hfind_cats' : findVal C (applyReg (runRegs rs) req).categories =
      some { ci with toolCount := ci.toolCount + 1 } := by
    rw [hcats', hreqC, findVal_setVal_self]
  have hcount2 : 2 ≤ (lst ++ [req.name]).count req.name := by
    rw [List.count_append]
    have h1 : 0 < lst.count req.name := List.count_pos_iff.mpr hmemlst
    have h2 : ([req.name] : List String).count req.name = 1 := by simp
    omega
  refine ⟨⟨?_, ?_⟩, ⟨lst, hlst, hfind_tbc', hcount2⟩,
    ⟨ci, { ci with toolCount := ci.toolCount + 1 }, hci, hfind_cats', rfl, ?_⟩⟩
  · simp [getToolSchema, tools_applyReg, findVal_setVal_self]
  · simp [getHandler, tools_applyReg, findVal_setVal_self]
  · have hs' : applyReg (runRegs rs) req = runRegs (rs ++ [req]) := by
      unfold runRegs
      rw [List.foldl_append]
      rfl
    have hfc2 : findVal C (runRegs (rs ++ [req])).categories =
        some { ci with toolCount := ci.toolCount + 1 } := by
      rw [← hs']
      exact hfind_cats'
    have hft2 : findVal C (runRegs (rs ++ [req])).toolsByCategory =
        some (lst ++ [req.name]) := by
      rw [← hs']
      exact hfind_tbc'
    have hlen : ({ ci with toolCount := ci.toolCount + 1 } : CategoryInfo).toolCount =
        (lst ++ [req.name]).length :=
      reach_count_len (rs ++ [req]) C _ _ hfc2 hft2
    have hnodup : (((applyReg (runRegs rs) req).tools.filter
        (fun p => decide ((p.2 : RegisteredTool).info.category = C))).map Prod.fst).Nodup := by
      have hsub : List.Sublist
          (((applyReg (runRegs rs) req).tools.filter
            (fun p => decide ((p.2 : RegisteredTool).info.category = C))).map Prod.fst)
          ((applyReg (runRegs rs) req).tools.map Prod.fst) :=
        (List.filter_sublist _).map Prod.fst
      have hnd : ((applyReg (runRegs rs) req).tools.map Prod.fst).Nodup := by
        rw [hs']
        exact reach_tools_nodup (rs ++ [req])
      exact hnd.sublist hsub
    have hsubset : ∀ x ∈ ((applyReg (runRegs rs) req).tools.filter
        (fun p => decide ((p.2 : RegisteredTool).info.category = C))).map Prod.fst,
        x ∈ lst ++ [req.name] := by
      intro x hx
      rcases List.mem_map.mp hx with ⟨p, hpF, hpx⟩
      rcases List.mem_filter.mp hpF with ⟨hpmem, hpcat⟩
      have hcat : (p.2 : RegisteredTool).info.category = C := of_decide_eq_true hpcat
      have hpmem2 : p ∈ (runRegs (rs ++ [req])).tools := by
        rw [← hs']
        exact hpmem
      have hin : p.1 ∈ lst ++ [req.name] := by
        refine reach_cat_mem (rs ++ [req]) p hpmem2 (lst ++ [req.name]) ?_
        rw [hcat]
        exact hft2
      rw [← hpx]
      exact hin
    have hle : ((applyReg (runRegs rs) req).tools.filter
        (fun p => decide ((p.2 : RegisteredTool).info.category = C))).length ≤
        (lst ++ [req.name]).dedup.length := by
      have h5 := nodup_subset_dedup_length _ _ hnodup hsubset
      rw [List.length_map] at h5
      exact h5
    have hlt : (lst ++ [req.name]).dedup.length < (lst ++ [req.name]).length :=
      dedup_length_lt_of_dup _ (not_nodup_of_two_le_count _ req.name hcount2)
    rw [hlen]
    omega

theorem duplicate_registration_witness :
    ∃ ci ci', findVal "moderation" (runRegs [banReq]).categories = some ci ∧
      findVal "moderation" (applyReg (runRegs [banReq]) banReq2).categories = some ci' ∧
      ci'.toolCount = ci.toolCount + 1 ∧
      ((applyReg (runRegs [banReq]) banReq2).tools.filter
          (fun p => decide ((p.2 : RegisteredTool).info.category = "moderation"))).length <
        ci'.toolCount :=
  (duplicate_registration [banReq] banReq2 "moderation" (by decide) rfl
    { info := infoOf banReq, handler := banHandler } rfl rfl).2.2
